import Mathlib

/-!
Verification development for the profile-aware USE-flag evaluation engine
of pkgcheck (src/pkgcheck/addons.py). The Python source is shallowly
embedded: sets become Finset, dicts become association lists, the stateful
coroutine and loops become explicit state-passing folds.
-/

namespace Pkgcheck

/-- A package object, specified at the external interface: it exposes a
name and an ordered sequence of keywords (possibly tilde-prefixed). -/
structure Pkg where
  name : String
  keywords : List String
deriving DecidableEq

/-- External-collaborator restriction values (pkgcore restrictions are
specified only at their interface: a decidable package predicate with
structural equality).  keywordsContain models
ContainmentMatch2 on the keywords attribute; nameIs models an atom
restriction; alwaysTrue models packages.AlwaysTrue. -/
inductive Restrict where
  | alwaysTrue : Restrict
  | keywordsContain (vals : List String) : Restrict
  | nameIs (n : String) : Restrict
deriving DecidableEq

/-- Match a restriction against a package. -/
def Restrict.matches : Restrict → Pkg → Bool
  | .alwaysTrue, _ => true
  | .keywordsContain vals, pkg => vals.any (fun v => pkg.keywords.contains v)
  | .nameIs n, pkg => pkg.name == n

/-- A FlagRuleSet: a mapping from package-matching restrictions to flag
names, with structural (value) equality, as produced by the
clone/add_bare_global/optimize/freeze pipeline in update_cache. -/
abbrev FlagRuleSet := List (Restrict × List String)

/-- pull_data: resolve the flags applicable to a concrete package, the
union of the flag sets of every matching restriction. -/
def pullData (rs : FlagRuleSet) (pkg : Pkg) : Finset String :=
  rs.foldl (fun acc p => if p.1.matches pkg then acc ∪ p.2.toFinset else acc) ∅

/-- snakeoil ProtectedSet: wraps a base membership test; additions go to a
local overlay, reads consult overlay and base. -/
structure ProtectedSet (α : Type) where
  base : α → Bool
  new : List α

/-- Membership in a ProtectedSet. -/
def ProtectedSet.mem [BEq α] (s : ProtectedSet α) (x : α) : Bool :=
  s.base x || s.new.contains x

/-- ProfileData (addons.py:102-131): the resolved view of one profile for
one stability key.  Only the fields the verified claims touch are kept;
visible is the vfilter.match closure. -/
structure ProfileData where
  name : String
  key : String
  masked_use : FlagRuleSet
  forced_use : FlagRuleSet
  visible : Pkg → Bool
  insoluble : ProtectedSet Pkg
  status : String
  deprecated : Bool

/-- ProfileData.identify_use (addons.py:122-131):
enabled := known_flags ∩ forced_use.pull_data(pkg);
immutable := enabled ∪ filter(known_flags.__contains__, masked_use.pull_data(pkg));
if masked_use.pull_data(pkg) is truthy, enabled := enabled - it. -/
def ProfileData.identify_use (self : ProfileData) (pkg : Pkg)
    (known_flags : Finset String) : Finset String × Finset String :=
  let enabled := known_flags ∩ pullData self.forced_use pkg
  let immutable :=
    enabled ∪ (pullData self.masked_use pkg).filter (fun f => f ∈ known_flags)
  let force_disabled := pullData self.masked_use pkg
  let enabled :=
    if force_disabled = (∅ : Finset String) then enabled
    else enabled \ force_disabled
  (immutable, enabled)

/-- Sample package used by witnesses. -/
def samplePkg : Pkg := ⟨"cat/pkg", ["amd64"]⟩

/-- Sample rule set used by witnesses. -/
def sampleRules : FlagRuleSet := [(.alwaysTrue, ["foo"])]

/-- Sample ProfileData used by witnesses. -/
def samplePD : ProfileData :=
  { name := "default/linux/amd64", key := "amd64",
    masked_use := sampleRules, forced_use := sampleRules,
    visible := fun _ => true, insoluble := ⟨fun _ => false, []⟩,
    status := "stable", deprecated := false }

/-- C1: mask wins in identify_use.  A flag that is simultaneously forced,
masked and known ends up in the returned immutable set and not in the
returned enabled set. -/
theorem identify_use_mask_wins (pd : ProfileData) (pkg : Pkg)
    (known_flags : Finset String) (f : String)
    (hforce : f ∈ pullData pd.forced_use pkg)
    (hmask : f ∈ pullData pd.masked_use pkg)
    (hknown : f ∈ known_flags) :
    f ∈ (pd.identify_use pkg known_flags).1 ∧
    f ∉ (pd.identify_use pkg known_flags).2 := by
  have hne : pullData pd.masked_use pkg ≠ (∅ : Finset String) :=
    Finset.ne_empty_of_mem hmask
  constructor
  · simp only [ProfileData.identify_use, Finset.mem_union, Finset.mem_inter,
      Finset.mem_filter]
    exact Or.inl ⟨hknown, hforce⟩
  · simp only [ProfileData.identify_use, if_neg hne, Finset.mem_sdiff,
      Finset.mem_inter, not_and, not_not]
    intro _
    exact hmask

/-- Witness for C1 at a concrete profile, package and flag set. -/
theorem identify_use_mask_wins_wit :
    "foo" ∈ pullData samplePD.forced_use samplePkg ∧
    "foo" ∈ pullData samplePD.masked_use samplePkg ∧
    "foo" ∈ ({"foo"} : Finset String) ∧
    ("foo" ∈ (samplePD.identify_use samplePkg {"foo"}).1 ∧
     "foo" ∉ (samplePD.identify_use samplePkg {"foo"}).2) :=
  ⟨by decide, by decide, by decide,
   identify_use_mask_wins samplePD samplePkg {"foo"} "foo"
     (by decide) (by decide) (by decide)⟩

/-- The pair the grouping loop compares (addons.py:439-440). -/
def rulesKey (p : ProfileData) : FlagRuleSet × FlagRuleSet :=
  (p.masked_use, p.forced_use)

/-- One iteration of the grouping loop body in update_cache
(addons.py:437-444): scan the existing groups; append the profile to the
first group whose head has equal masked_use and forced_use, else start a
new singleton group at the end.  Groups are non-empty by construction, so
the head lookup never fails. -/
def addToGroups : List (List ProfileData) → ProfileData → List (List ProfileData)
  | [], p => [[p]]
  | [] :: rest, p => [] :: addToGroups rest p
  | (q :: gt) :: rest, p =>
    if q.masked_use = p.masked_use ∧ q.forced_use = p.forced_use then
      ((q :: gt) ++ [p]) :: rest
    else (q :: gt) :: addToGroups rest p

/-- The grouping pass of update_cache (addons.py:435-444) for one
stability key: partition the profile list into groups of equal
masked_use/forced_use rule-sets, preserving first-seen order. -/
def groupProfiles (ps : List ProfileData) : List (List ProfileData) :=
  ps.foldl addToGroups []

/-- Invariant of the group list: members of a group share their rules key,
and members of distinct groups never do. -/
def GroupsOK (groups : List (List ProfileData)) : Prop :=
  (∀ g ∈ groups, ∀ a ∈ g, ∀ b ∈ g, rulesKey a = rulesKey b) ∧
  groups.Pairwise (fun g1 g2 => ∀ a ∈ g1, ∀ b ∈ g2, rulesKey a ≠ rulesKey b)

theorem addToGroups_mem_src {groups : List (List ProfileData)}
    {p : ProfileData} {g : List ProfileData} {x : ProfileData}
    (hg : g ∈ addToGroups groups p) (hx : x ∈ g) :
    (∃ g0 ∈ groups, x ∈ g0) ∨ x = p := by
  induction groups with
  | nil =>
    simp only [addToGroups, List.mem_singleton] at hg
    subst hg
    simp only [List.mem_singleton] at hx
    exact Or.inr hx
  | cons g0 rest ih =>
    rcases g0 with _ | ⟨q, gt⟩
    · simp only [addToGroups] at hg
      rcases List.mem_cons.mp hg with h | h
      · subst h
        cases hx
      · rcases ih h with ⟨g1, hg1, hxg1⟩ | h
        · exact Or.inl ⟨g1, List.mem_cons_of_mem _ hg1, hxg1⟩
        · exact Or.inr h
    · simp only [addToGroups] at hg
      by_cases hk : q.masked_use = p.masked_use ∧ q.forced_use = p.forced_use
      · rw [if_pos hk] at hg
        rcases List.mem_cons.mp hg with h | h
        · subst h
          rcases List.mem_append.mp hx with h | h
          · exact Or.inl ⟨q :: gt, List.mem_cons_self _ _, h⟩
          · exact Or.inr (List.mem_singleton.mp h)
        · exact Or.inl ⟨g, List.mem_cons_of_mem _ h, hx⟩
      · rw [if_neg hk] at hg
        rcases List.mem_cons.mp hg with h | h
        · subst h
          exact Or.inl ⟨q :: gt, List.mem_cons_self _ _, hx⟩
        · rcases ih h with ⟨g1, hg1, hxg1⟩ | h
          · exact Or.inl ⟨g1, List.mem_cons_of_mem _ hg1, hxg1⟩
          · exact Or.inr h

theorem addToGroups_mem_new (groups : List (List ProfileData))
    (p : ProfileData) : ∃ g ∈ addToGroups groups p, p ∈ g := by
  induction groups with
  | nil => exact ⟨[p], List.mem_singleton_self _, List.mem_singleton_self _⟩
  | cons g0 rest ih =>
    rcases g0 with _ | ⟨q, gt⟩
    · simp only [addToGroups]
      rcases ih with ⟨g, hg, hp⟩
      exact ⟨g, List.mem_cons_of_mem _ hg, hp⟩
    · simp only [addToGroups]
      by_cases hk : q.masked_use = p.masked_use ∧ q.forced_use = p.forced_use
      · rw [if_pos hk]
        exact ⟨(q :: gt) ++ [p], List.mem_cons_self _ _,
          List.mem_append.mpr (Or.inr (List.mem_singleton_self _))⟩
      · rw [if_neg hk]
        rcases ih with ⟨g, hg, hp⟩
        exact ⟨g, List.mem_cons_of_mem _ hg, hp⟩

theorem addToGroups_mem_mono {groups : List (List ProfileData)}
    {x : ProfileData} (p : ProfileData)
    (h : ∃ g ∈ groups, x ∈ g) : ∃ g ∈ addToGroups groups p, x ∈ g := by
  induction groups with
  | nil => rcases h with ⟨g, hg, _⟩; cases hg
  | cons g0 rest ih =>
    rcases h with ⟨g, hg, hx⟩
    rcases g0 with _ | ⟨q, gt⟩
    · simp only [addToGroups]
      rcases List.mem_cons.mp hg with h | h
      · subst h
        cases hx
      · rcases ih ⟨g, h, hx⟩ with ⟨g1, hg1, hx1⟩
        exact ⟨g1, List.mem_cons_of_mem _ hg1, hx1⟩
    · simp only [addToGroups]
      by_cases hk : q.masked_use = p.masked_use ∧ q.forced_use = p.forced_use
      · rw [if_pos hk]
        rcases List.mem_cons.mp hg with h | h
        · exact ⟨(q :: gt) ++ [p], List.mem_cons_self _ _,
            List.mem_append.mpr (Or.inl (h ▸ hx))⟩
        · exact ⟨g, List.mem_cons_of_mem _ h, hx⟩
      · rw [if_neg hk]
        rcases List.mem_cons.mp hg with h | h
        · exact ⟨q :: gt, List.mem_cons_self _ _, h ▸ hx⟩
        · rcases ih ⟨g, h, hx⟩ with ⟨g1, hg1, hx1⟩
          exact ⟨g1, List.mem_cons_of_mem _ hg1, hx1⟩

theorem addToGroups_ok {groups : List (List ProfileData)} (p : ProfileData)
    (h : GroupsOK groups) : GroupsOK (addToGroups groups p) := by
  induction groups with
  | nil =>
    refine ⟨?_, ?_⟩
    · intro g hg a ha b hb
      simp only [addToGroups, List.mem_singleton] at hg
      subst hg
      simp only [List.mem_singleton] at ha hb
      rw [ha, hb]
    · simp [addToGroups]
  | cons g0 rest ih =>
    obtain ⟨hintra, hpair⟩ := h
    have hrest : GroupsOK rest :=
      ⟨fun g hg => hintra g (List.mem_cons_of_mem _ hg),
       (List.pairwise_cons.mp hpair).2⟩
    have hhead := (List.pairwise_cons.mp hpair).1
    rcases g0 with _ | ⟨q, gt⟩
    · simp only [addToGroups]
      obtain ⟨ih1, ih2⟩ := ih hrest
      refine ⟨?_, ?_⟩
      · intro g hg
        rcases List.mem_cons.mp hg with h | h
        · subst h
          intro a ha
          cases ha
        · exact ih1 g h
      · refine List.pairwise_cons.mpr ⟨?_, ih2⟩
        intro g hg a ha
        cases ha
    · have hq : q ∈ q :: gt := List.mem_cons_self _ _
      simp only [addToGroups]
      by_cases hk : q.masked_use = p.masked_use ∧ q.forced_use = p.forced_use
      · rw [if_pos hk]
        have hkey : rulesKey q = rulesKey p := by
          simp only [rulesKey, hk.1, hk.2]
        refine ⟨?_, ?_⟩
        · intro g hg a ha b hb
          rcases List.mem_cons.mp hg with h | h
          · subst h
            have key_eq : ∀ x ∈ (q :: gt) ++ [p], rulesKey x = rulesKey q := by
              intro x hx
              rcases List.mem_append.mp hx with h | h
              · exact hintra (q :: gt) (List.mem_cons_self _ _) x h q hq
              · rw [List.mem_singleton.mp h, hkey]
            rw [key_eq a ha, key_eq b hb]
          · exact hintra g (List.mem_cons_of_mem _ h) a ha b hb
        · refine List.pairwise_cons.mpr ⟨?_, (List.pairwise_cons.mp hpair).2⟩
          intro g hg a ha b hb
          rcases List.mem_append.mp ha with h | h
          · exact hhead g hg a h b hb
          · rw [List.mem_singleton.mp h, ← hkey]
            exact hhead g hg q hq b hb
      · rw [if_neg hk]
        obtain ⟨ih1, ih2⟩ := ih hrest
        refine ⟨?_, ?_⟩
        · intro g hg
          rcases List.mem_cons.mp hg with h | h
          · subst h
            exact hintra (q :: gt) (List.mem_cons_self _ _)
          · exact ih1 g h
        · refine List.pairwise_cons.mpr ⟨?_, ih2⟩
          intro g hg a ha b hb
          rcases addToGroups_mem_src hg hb with ⟨g1, hg1, hb1⟩ | h
          · exact hhead g1 hg1 a ha b hb1
          · subst h
            have haq : rulesKey a = rulesKey q :=
              hintra (q :: gt) (List.mem_cons_self _ _) a ha q hq
            intro hab
            apply hk
            have hqb : rulesKey q = rulesKey b := by rw [← haq, hab]
            exact ⟨congrArg Prod.fst hqb, congrArg Prod.snd hqb⟩

theorem groupProfiles_aux_mem (ps : List ProfileData)
    (groups : List (List ProfileData)) (x : ProfileData)
    (h : (∃ g ∈ groups, x ∈ g) ∨ x ∈ ps) :
    ∃ g ∈ ps.foldl addToGroups groups, x ∈ g := by
  induction ps generalizing groups with
  | nil =>
    rcases h with h | h
    · exact h
    · cases h
  | cons p ps ih =>
    simp only [List.foldl_cons]
    rcases h with h | h
    · exact ih _ (Or.inl (addToGroups_mem_mono p h))
    · rcases List.mem_cons.mp h with h | h
      · subst h
        exact ih _ (Or.inl (addToGroups_mem_new groups x))
      · exact ih _ (Or.inr h)

theorem groupProfiles_aux_ok (ps : List ProfileData)
    (groups : List (List ProfileData)) (h : GroupsOK groups) :
    GroupsOK (ps.foldl addToGroups groups) := by
  induction ps generalizing groups with
  | nil => exact h
  | cons p ps ih => exact ih _ (addToGroups_ok p h)

theorem identify_use_congr (a b : ProfileData)
    (h1 : a.masked_use = b.masked_use) (h2 : a.forced_use = b.forced_use)
    (pkg : Pkg) (known_flags : Finset String) :
    a.identify_use pkg known_flags = b.identify_use pkg known_flags := by
  simp only [ProfileData.identify_use, h1, h2]

/-- C2: grouping soundness.  Two profiles with equal masked_use and
forced_use rule-sets land in a common group of groupProfiles, and within
any group identify_use agrees on every package and flag set. -/
theorem profile_grouping_sound (ps : List ProfileData) (p q : ProfileData)
    (hp : p ∈ ps) (hq : q ∈ ps)
    (hm : p.masked_use = q.masked_use) (hf : p.forced_use = q.forced_use) :
    (∃ g ∈ groupProfiles ps, p ∈ g ∧ q ∈ g) ∧
    (∀ g ∈ groupProfiles ps, ∀ a ∈ g, ∀ b ∈ g, ∀ pkg known_flags,
      a.identify_use pkg known_flags = b.identify_use pkg known_flags) := by
  have hok : GroupsOK (groupProfiles ps) :=
    groupProfiles_aux_ok ps []
      ⟨fun g hg => absurd hg (List.not_mem_nil g), List.Pairwise.nil⟩
  constructor
  · obtain ⟨g1, hg1, hpg1⟩ := groupProfiles_aux_mem ps [] p (Or.inr hp)
    obtain ⟨g2, hg2, hqg2⟩ := groupProfiles_aux_mem ps [] q (Or.inr hq)
    by_cases hgg : g1 = g2
    · subst hgg
      exact ⟨g1, hg1, hpg1, hqg2⟩
    · exfalso
      have hsym : Symmetric
          (fun g1 g2 : List ProfileData =>
            ∀ a ∈ g1, ∀ b ∈ g2, rulesKey a ≠ rulesKey b) := by
        intro u v huv b hb a ha
        exact fun h => huv a ha b hb h.symm
      have hne := (hok.2.forall hsym) hg1 hg2 hgg p hpg1 q hqg2
      apply hne
      simp only [rulesKey, hm, hf]
  · intro g hg a ha b hb pkg known_flags
    have hab := hok.1 g hg a ha b hb
    exact identify_use_congr a b (congrArg Prod.fst hab)
      (congrArg Prod.snd hab) pkg known_flags

/-- A second sample profile, equal rule-sets, different path. -/
def samplePD2 : ProfileData :=
  { name := "default/linux/amd64/desktop", key := "amd64",
    masked_use := sampleRules, forced_use := sampleRules,
    visible := fun _ => true, insoluble := ⟨fun _ => false, []⟩,
    status := "dev", deprecated := false }

/-- Witness for C2 at a concrete two-profile list. -/
theorem profile_grouping_sound_wit :
    samplePD ∈ [samplePD, samplePD2] ∧ samplePD2 ∈ [samplePD, samplePD2] ∧
    samplePD.masked_use = samplePD2.masked_use ∧
    samplePD.forced_use = samplePD2.forced_use ∧
    ((∃ g ∈ groupProfiles [samplePD, samplePD2], samplePD ∈ g ∧ samplePD2 ∈ g) ∧
     (∀ g ∈ groupProfiles [samplePD, samplePD2], ∀ a ∈ g, ∀ b ∈ g,
       ∀ pkg known_flags,
       a.identify_use pkg known_flags = b.identify_use pkg known_flags)) :=
  ⟨List.mem_cons_self _ _,
   List.mem_cons_of_mem _ (List.mem_cons_self _ _), rfl, rfl,
   profile_grouping_sound [samplePD, samplePD2] samplePD samplePD2
     (List.mem_cons_self _ _)
     (List.mem_cons_of_mem _ (List.mem_cons_self _ _)) rfl rfl⟩

/-- Association-list lookup, modelling Python dict.get. -/
def alookup {β : Type} : List (String × β) → String → Option β
  | [], _ => none
  | (k, v) :: rest, key => if k = key then some v else alookup rest key

/-- profile_evaluate_dict: stability key -> groups of ProfileData. -/
abbrev EvalDict := List (String × List (List ProfileData))

/-- ProfileAddon.identify_profiles (addons.py:446-457): for each package
keyword plus the synthesized tilde forms of the non-tilde keywords, look
the key up in profile_evaluate_dict; for each registered group keep the
members visible for the package and append the filtered group when it is
non-empty. -/
def identify_profiles (d : EvalDict) (pkg : Pkg) : List (List ProfileData) :=
  let keywords := pkg.keywords
  let unstable_keywords :=
    (keywords.filter (fun x => x.toList.head? != some '~')).map (fun x => "~" ++ x)
  (keywords ++ unstable_keywords).foldl
    (fun groups key =>
      match alookup d key with
      | none => groups
      | some profile_grps =>
        profile_grps.foldl
          (fun gs profiles =>
            match profiles.filter (fun x => x.visible pkg) with
            | [] => gs
            | y :: ys => gs ++ [y :: ys]) groups)
    []

/-- The filtered-group contribution of a single registered key. -/
def keyGroups (d : EvalDict) (pkg : Pkg) (key : String) : List (List ProfileData) :=
  match alookup d key with
  | none => []
  | some profile_grps =>
    profile_grps.filterMap (fun profiles =>
      match profiles.filter (fun x => x.visible pkg) with
      | [] => none
      | y :: ys => some (y :: ys))

theorem keyGroups_foldl (pkg : Pkg) (grps : List (List ProfileData)) :
    ∀ acc : List (List ProfileData),
    grps.foldl
      (fun gs profiles =>
        match profiles.filter (fun x => x.visible pkg) with
        | [] => gs
        | y :: ys => gs ++ [y :: ys]) acc
    = acc ++ grps.filterMap (fun profiles =>
        match profiles.filter (fun x => x.visible pkg) with
        | [] => none
        | y :: ys => some (y :: ys)) := by
  induction grps with
  | nil => intro acc; simp
  | cons profiles rest ih =>
    intro acc
    rcases hfil : profiles.filter (fun x => x.visible pkg) with _ | ⟨y, ys⟩
    · simp only [List.foldl_cons, List.filterMap_cons, hfil]
      exact ih acc
    · simp only [List.foldl_cons, List.filterMap_cons, hfil]
      rw [ih (acc ++ [y :: ys])]
      simp

theorem identify_profiles_foldl (d : EvalDict) (pkg : Pkg)
    (keys : List String) :
    ∀ acc : List (List ProfileData),
    keys.foldl
      (fun groups key =>
        match alookup d key with
        | none => groups
        | some profile_grps =>
          profile_grps.foldl
            (fun gs profiles =>
              match profiles.filter (fun x => x.visible pkg) with
              | [] => gs
              | y :: ys => gs ++ [y :: ys]) groups) acc
    = acc ++ keys.flatMap (keyGroups d pkg) := by
  induction keys with
  | nil => intro acc; simp
  | cons key rest ih =>
    intro acc
    rcases hl : alookup d key with _ | profile_grps
    · simp only [List.foldl_cons, List.flatMap_cons, hl]
      rw [ih acc]
      simp [keyGroups, hl]
    · simp only [List.foldl_cons, List.flatMap_cons, hl]
      rw [keyGroups_foldl pkg profile_grps acc, ih]
      simp [keyGroups, hl]

/-- C4: the identify_profiles contract.  The loop produces, in order, for
every package keyword followed by the synthesized tilde forms of exactly
the keywords whose first character is not a tilde, the visible-filtered
registered groups, each appended as one unit iff non-empty. -/
theorem identify_profiles_contract (d : EvalDict) (pkg : Pkg)
    (_hk : "" ∉ pkg.keywords) :
    identify_profiles d pkg =
      (pkg.keywords ++
        (pkg.keywords.filter (fun x => x.toList.head? != some '~')).map
          (fun x => "~" ++ x)).flatMap
        (fun key =>
          match alookup d key with
          | none => []
          | some profile_grps =>
            profile_grps.filterMap (fun profiles =>
              match profiles.filter (fun x => x.visible pkg) with
              | [] => none
              | y :: ys => some (y :: ys))) := by
  unfold identify_profiles
  rw [identify_profiles_foldl]
  simp only [List.nil_append]
  rfl

/-- A sample evaluate dict for the C4 witness. -/
def sampleEvalDict : EvalDict := [("amd64", [[samplePD, samplePD2]])]

/-- Witness for C4 at a concrete dict and package. -/
theorem identify_profiles_contract_wit :
    "" ∉ samplePkg.keywords ∧
    identify_profiles sampleEvalDict samplePkg =
      (samplePkg.keywords ++
        (samplePkg.keywords.filter (fun x => x.toList.head? != some '~')).map
          (fun x => "~" ++ x)).flatMap
        (fun key =>
          match alookup sampleEvalDict key with
          | none => []
          | some profile_grps =>
            profile_grps.filterMap (fun profiles =>
              match profiles.filter (fun x => x.visible samplePkg) with
              | [] => none
              | y :: ys => some (y :: ys))) :=
  ⟨by decide, identify_profiles_contract sampleEvalDict samplePkg (by decide)⟩

/-- ContainmentMatch2 on the keywords attribute: the package matches when
any of the given values is among its keywords. -/
def keywordsContainAny (pkg : Pkg) (vals : List String) : Bool :=
  vals.any (fun v => pkg.keywords.contains v)

/-- The unstable insoluble set built in update_cache (addons.py:391):
ProtectedSet(self.global_insoluble), shown here together with the local
additions u accumulated so far. -/
def unstableInsolubleAt (global_insoluble : List Pkg) (u : List Pkg) :
    ProtectedSet Pkg :=
  ⟨fun x => global_insoluble.contains x, u⟩

/-- The stable insoluble set built in update_cache (addons.py:409):
ProtectedSet(unstable_insoluble); the base aliases the unstable set, so
reads observe its additions u; s are the stable-local additions. -/
def stableInsolubleAt (global_insoluble : List Pkg) (u s : List Pkg) :
    ProtectedSet Pkg :=
  ⟨fun x => (unstableInsolubleAt global_insoluble u).mem x, s⟩

/-- Construction of the stable/unstable ProfileData pair for one profile
and one architecture (addons.py:399-424).  The stable visibility filter is
AndRestriction(vfilter, ContainmentMatch2((arch,))); the unstable one is
AndRestriction(vfilter, ContainmentMatch2((arch, tilde-arch))). -/
def mkProfilePair (profilePath arch status : String) (deprecated : Bool)
    (vfilter : Pkg → Bool)
    (immutable_flags stable_immutable_flags enabled_flags
      stable_enabled_flags : FlagRuleSet)
    (global_insoluble : List Pkg) : ProfileData × ProfileData :=
  let stable_key := arch
  let unstable_key := "~" ++ arch
  let unstable_insoluble := unstableInsolubleAt global_insoluble []
  ({ name := profilePath, key := stable_key,
     masked_use := stable_immutable_flags, forced_use := stable_enabled_flags,
     visible := fun pkg => vfilter pkg && keywordsContainAny pkg [stable_key],
     insoluble := ⟨fun x => unstable_insoluble.mem x, []⟩,
     status := status, deprecated := deprecated },
   { name := profilePath, key := unstable_key,
     masked_use := immutable_flags, forced_use := enabled_flags,
     visible := fun pkg =>
       vfilter pkg && keywordsContainAny pkg [stable_key, unstable_key],
     insoluble := unstable_insoluble,
     status := status, deprecated := deprecated })

/-- C5: memo-inversion soundness.  Stable visibility implies unstable
visibility (and contrapositively a package invisible under the unstable
filter is invisible under the stable one), and the unstable insoluble set
is contained in the stable insoluble set at every point of the run. -/
theorem visibility_monotone_insoluble_layering
    (profilePath arch status : String) (deprecated : Bool)
    (vfilter : Pkg → Bool)
    (immutable_flags stable_immutable_flags enabled_flags
      stable_enabled_flags : FlagRuleSet)
    (global_insoluble : List Pkg) :
    (∀ pkg : Pkg,
      (mkProfilePair profilePath arch status deprecated vfilter
        immutable_flags stable_immutable_flags enabled_flags
        stable_enabled_flags global_insoluble).1.visible pkg = true →
      (mkProfilePair profilePath arch status deprecated vfilter
        immutable_flags stable_immutable_flags enabled_flags
        stable_enabled_flags global_insoluble).2.visible pkg = true) ∧
    (∀ pkg : Pkg,
      (mkProfilePair profilePath arch status deprecated vfilter
        immutable_flags stable_immutable_flags enabled_flags
        stable_enabled_flags global_insoluble).2.visible pkg = false →
      (mkProfilePair profilePath arch status deprecated vfilter
        immutable_flags stable_immutable_flags enabled_flags
        stable_enabled_flags global_insoluble).1.visible pkg = false) ∧
    (∀ (u s : List Pkg) (x : Pkg),
      (unstableInsolubleAt global_insoluble u).mem x = true →
      (stableInsolubleAt global_insoluble u s).mem x = true) := by
  have mono : ∀ pkg : Pkg,
      (vfilter pkg && keywordsContainAny pkg [arch]) = true →
      (vfilter pkg && keywordsContainAny pkg [arch, "~" ++ arch]) = true := by
    intro pkg h
    simp only [Bool.and_eq_true, keywordsContainAny, List.any_eq_true] at h ⊢
    refine ⟨h.1, ?_⟩
    obtain ⟨v, hv, hmem⟩ := h.2
    have hv' : v = arch := List.mem_singleton.mp hv
    exact ⟨v, by rw [hv']; exact List.mem_cons_self _ _, hmem⟩
  refine ⟨?_, ?_, ?_⟩
  · intro pkg h
    simp only [mkProfilePair] at h ⊢
    exact mono pkg h
  · intro pkg h
    cases hst : vfilter pkg && keywordsContainAny pkg [arch] with
    | false => simpa [mkProfilePair] using hst
    | true =>
      have hun := mono pkg hst
      simp only [mkProfilePair] at h
      rw [h] at hun
      cases hun
  · intro u s x h
    simp only [stableInsolubleAt, unstableInsolubleAt, ProtectedSet.mem,
      Bool.or_eq_true] at h ⊢
    exact Or.inl h

/-- A ProfileError raised by the external profile loader: carries the
profile path and the error text. -/
structure ProfError where
  path : String
  error : String
deriving DecidableEq

/-- One entry of the sorted options.profiles iteration in
ProfileAddon.__init__: its arch, deprecation flag, and the outcome of
target_repo.profiles.create_profile (the built profile object is modelled
as an opaque handle string; an exception as the error value). -/
structure ProfEntry where
  arch : String
  deprecated : Bool
  create : Except ProfError String

/-- The message of the PkgcheckUserException raised for an
explicitly-selected invalid profile (addons.py:247). -/
def invalidProfileMsg (e : ProfError) : String :=
  "invalid profile: '" ++ e.path ++ "': " ++ e.error

/-- The profile loop of ProfileAddon.__init__ (addons.py:238-249).
selectedProfiles models `options.selected_profiles is not None`;
ignoreDeprecated models ignore_deprecated_profiles.  On a ProfileError the
profile is skipped unless profiles were explicitly selected, in which case
the run aborts with a PkgcheckUserException. -/
def initArchProfiles (selectedProfiles ignoreDeprecated : Bool) :
    List ProfEntry → Except String (List (String × String))
  | [] => .ok []
  | p :: ps =>
    if p.deprecated && ignoreDeprecated then
      initArchProfiles selectedProfiles ignoreDeprecated ps
    else
      match p.create with
      | .error e =>
        if selectedProfiles then .error (invalidProfileMsg e)
        else initArchProfiles selectedProfiles ignoreDeprecated ps
      | .ok prof =>
        (initArchProfiles selectedProfiles ignoreDeprecated ps).map
          (fun rest => (p.arch, prof) :: rest)

/-- C6: profile-error handling.  Without an explicit profile selection the
loop never raises and yields exactly the successfully created profiles,
silently skipping failures; with an explicit selection, the presence of a
failing (non-skipped) profile aborts the loop with the
invalid-profile message naming that profile's path and error. -/
theorem init_profile_error_handling (ignoreDeprecated : Bool)
    (ps : List ProfEntry) :
    (initArchProfiles false ignoreDeprecated ps =
      .ok (ps.filterMap (fun p =>
        if p.deprecated && ignoreDeprecated then none
        else
          match p.create with
          | .error _ => none
          | .ok prof => some (p.arch, prof)))) ∧
    ((∃ p ∈ ps, (p.deprecated && ignoreDeprecated) = false ∧
        ∃ e, p.create = .error e) →
      ∃ e, (∃ p ∈ ps, (p.deprecated && ignoreDeprecated) = false ∧
          p.create = .error e) ∧
        initArchProfiles true ignoreDeprecated ps =
          .error (invalidProfileMsg e)) := by
  constructor
  · induction ps with
    | nil => rfl
    | cons p ps ih =>
      simp only [initArchProfiles, List.filterMap_cons]
      by_cases hd : (p.deprecated && ignoreDeprecated) = true
      · rw [if_pos hd, if_pos hd]
        exact ih
      · rw [if_neg hd, if_neg hd]
        rcases hc : p.create with e | prof
        · exact ih
        · rw [ih]
          rfl
  · induction ps with
    | nil =>
      rintro ⟨p, hp, _⟩
      cases hp
    | cons p ps ih =>
      rintro ⟨q, hq, hqd, e, hqe⟩
      by_cases hd : (p.deprecated && ignoreDeprecated) = true
      · have hq' : q ∈ ps := by
          rcases List.mem_cons.mp hq with h | h
          · rw [h] at hqd
            rw [hqd] at hd
            cases hd
          · exact h
        obtain ⟨e1, he1, hrun⟩ := ih ⟨q, hq', hqd, e, hqe⟩
        refine ⟨e1, ?_, ?_⟩
        · obtain ⟨r, hr, hrd, hre⟩ := he1
          exact ⟨r, List.mem_cons_of_mem _ hr, hrd, hre⟩
        · simp only [initArchProfiles, if_pos hd]
          exact hrun
      · have hd' : (p.deprecated && ignoreDeprecated) = false :=
          Bool.not_eq_true _ |>.mp hd
        rcases hc : p.create with e0 | prof
        · refine ⟨e0, ⟨p, List.mem_cons_self _ _, hd', hc⟩, ?_⟩
          simp only [initArchProfiles, if_neg hd, hc]
          rfl
        · have hq' : q ∈ ps := by
            rcases List.mem_cons.mp hq with h | h
            · rw [h] at hqe
              rw [hqe] at hc
              cases hc
            · exact h
          obtain ⟨e1, he1, hrun⟩ := ih ⟨q, hq', hqd, e, hqe⟩
          refine ⟨e1, ?_, ?_⟩
          · obtain ⟨r, hr, hrd, hre⟩ := he1
            exact ⟨r, List.mem_cons_of_mem _ hr, hrd, hre⟩
          · simp only [initArchProfiles, if_neg hd, hc, hrun]
            rfl

/-- The file-set fingerprint stored with each cached profile: the maximal
mtime and the frozenset of regular-file paths (profile_data values). -/
abbrev Fingerprint := Nat × Finset String

/-- The CompiledProfile record built (or reused) per profile in
update_cache (addons.py:324-385), with every persisted field. -/
structure CompiledProfileRecord where
  masks : List Restrict
  unmasks : List Restrict
  immutable_flags : FlagRuleSet
  stable_immutable_flags : FlagRuleSet
  enabled_flags : FlagRuleSet
  stable_enabled_flags : FlagRuleSet
  pkg_use : FlagRuleSet
  iuse_effective : List String
  use : List String
  provides_repo : String
deriving DecidableEq

/-- One per-profile-path entry of the namespace cache: the stored
fingerprint plus the compiled fields. -/
structure CacheEntry where
  files : Fingerprint
  record : CompiledProfileRecord

/-- The inputs update_cache sees for one (arch, profile) pair: the
profile path, the live fingerprint from profile_data, and the outcome of
fresh compilation (none models a ProfileError that skips the profile). -/
structure ProfileState where
  path : String
  files : Fingerprint
  compile : Option CompiledProfileRecord

/-- The evolving state of one profiles-base cache namespace: the
per-path entries and the dirty flag (the namespace's update key). -/
structure NsState where
  cache : List (String × CacheEntry)
  dirty : Bool

/-- Association-list update, modelling Python dict assignment. -/
def aset {β : Type} : List (String × β) → String → β → List (String × β)
  | [], key, v => [(key, v)]
  | (k, w) :: rest, key, v =>
    if k = key then (k, v) :: rest else (k, w) :: aset rest key v

/-- The per-profile body of update_cache (addons.py:316-385): try the
cached entry, force a refresh when the stored fingerprint differs from
the live one, recompile on a miss (or skip on ProfileError), and mark the
namespace dirty exactly when a recompilation was stored.  The second
component reports the fields used for the ProfileData together with a
recompilation flag (none when the profile was skipped). -/
def stepProfile (s : NsState) (p : ProfileState) :
    NsState × Option (CompiledProfileRecord × Bool) :=
  match alookup s.cache p.path with
  | some entry =>
    if entry.files = p.files then (s, some (entry.record, false))
    else
      match p.compile with
      | none => (s, none)
      | some r =>
        ({ cache := aset s.cache p.path ⟨p.files, r⟩, dirty := true },
         some (r, true))
  | none =>
    match p.compile with
    | none => (s, none)
    | some r =>
      ({ cache := aset s.cache p.path ⟨p.files, r⟩, dirty := true },
       some (r, true))

/-- The profile loop of update_cache over one namespace. -/
def runNamespace : NsState → List ProfileState →
    NsState × List (Option (CompiledProfileRecord × Bool))
  | s, [] => (s, [])
  | s, p :: ps =>
    let r1 := stepProfile s p
    let r2 := runNamespace r1.1 ps
    (r2.1, r1.2 :: r2.2)

/-- End of update_cache (addons.py:426-433): the namespace is written to
disk iff its update flag was popped as true. -/
def persistNamespace (s : NsState) : Option (List (String × CacheEntry)) :=
  if s.dirty then some s.cache else none

/-- Whether a per-profile outcome was a recompilation. -/
def isRecompiled : Option (CompiledProfileRecord × Bool) → Bool
  | some (_, true) => true
  | _ => false

theorem alookup_aset {β : Type} (c : List (String × β)) (k k' : String)
    (v : β) :
    alookup (aset c k v) k' = if k = k' then some v else alookup c k' := by
  induction c with
  | nil => simp only [aset, alookup]
  | cons hd rest ih =>
    obtain ⟨k0, w⟩ := hd
    by_cases h0 : k0 = k
    · subst h0
      simp only [aset, if_pos rfl, alookup]
      by_cases h1 : k0 = k'
      · simp only [if_pos h1]
      · simp only [if_neg h1]
    · simp only [aset, if_neg h0, alookup]
      by_cases h1 : k0 = k'
      · have h2 : k ≠ k' := fun h => h0 (h1.trans h.symm)
        rw [if_pos h1, if_neg h2, if_pos h1]
      · rw [if_neg h1, if_neg h1, ih]

theorem stepProfile_cache_other (s : NsState) (p : ProfileState)
    (q : String) (hq : p.path ≠ q) :
    alookup (stepProfile s p).1.cache q = alookup s.cache q := by
  unfold stepProfile
  rcases alookup s.cache p.path with _ | entry
  · rcases p.compile with _ | r
    · rfl
    · dsimp only
      rw [alookup_aset, if_neg hq]
  · dsimp only
    by_cases hf : entry.files = p.files
    · rw [if_pos hf]
    · rw [if_neg hf]
      rcases p.compile with _ | r
      · rfl
      · dsimp only
        rw [alookup_aset, if_neg hq]

theorem runNamespace_cache_other (ps : List ProfileState) (s : NsState)
    (q : String) (h : ∀ p ∈ ps, p.path ≠ q) :
    alookup (runNamespace s ps).1.cache q = alookup s.cache q := by
  induction ps generalizing s with
  | nil => rfl
  | cons p ps ih =>
    simp only [runNamespace]
    rw [ih _ (fun r hr => h r (List.mem_cons_of_mem _ hr))]
    exact stepProfile_cache_other s p q (h p (List.mem_cons_self _ _))

theorem stepProfile_dirty (s : NsState) (p : ProfileState) :
    (stepProfile s p).1.dirty =
      (s.dirty || isRecompiled (stepProfile s p).2) := by
  unfold stepProfile
  rcases alookup s.cache p.path with _ | entry
  · rcases p.compile with _ | r
    · simp [isRecompiled]
    · simp [isRecompiled]
  · dsimp only
    by_cases hf : entry.files = p.files
    · rw [if_pos hf]
      simp [isRecompiled]
    · rw [if_neg hf]
      rcases p.compile with _ | r
      · simp [isRecompiled]
      · simp [isRecompiled]

theorem runNamespace_dirty (ps : List ProfileState) (s : NsState) :
    (runNamespace s ps).1.dirty =
      (s.dirty || (runNamespace s ps).2.any isRecompiled) := by
  induction ps generalizing s with
  | nil => simp [runNamespace]
  | cons p ps ih =>
    simp only [runNamespace, List.any_cons]
    rw [ih, stepProfile_dirty, Bool.or_assoc]

theorem isRecompiled_eq_true (o : Option (CompiledProfileRecord × Bool)) :
    isRecompiled o = true ↔ ∃ r, o = some (r, true) := by
  rcases o with _ | ⟨r, b⟩
  · simp [isRecompiled]
  · rcases b with _ | _ <;> simp [isRecompiled]

/-- C9: dirty-only persistence.  Starting from a freshly loaded namespace
(dirty flag unset), the namespace cache is written back at the end of
update_cache iff at least one of its profiles was recompiled during the
run. -/
theorem persist_iff_recompiled (c0 : List (String × CacheEntry))
    (ps : List ProfileState) :
    (persistNamespace (runNamespace ⟨c0, false⟩ ps).1).isSome = true ↔
    ∃ o ∈ (runNamespace ⟨c0, false⟩ ps).2, ∃ r, o = some (r, true) := by
  have hdirty := runNamespace_dirty ps ⟨c0, false⟩
  simp only [Bool.false_or] at hdirty
  constructor
  · intro h
    have hd : (runNamespace ⟨c0, false⟩ ps).1.dirty = true := by
      by_contra hd
      have hd' : (runNamespace ⟨c0, false⟩ ps).1.dirty = false :=
        Bool.not_eq_true _ |>.mp hd
      rw [persistNamespace, hd'] at h
      simp at h
    rw [hdirty] at hd
    obtain ⟨o, ho, hrec⟩ := List.any_eq_true.mp hd
    exact ⟨o, ho, (isRecompiled_eq_true o).mp hrec⟩
  · intro ⟨o, ho, r, hr⟩
    have hany : (runNamespace ⟨c0, false⟩ ps).2.any isRecompiled = true :=
      List.any_eq_true.mpr ⟨o, ho, (isRecompiled_eq_true o).mpr ⟨r, hr⟩⟩
    rw [persistNamespace, hdirty, hany]
    rfl

theorem runNamespace_fresh (ps : List ProfileState) (s : NsState)
    (hmiss : ∀ p ∈ ps, alookup s.cache p.path = none)
    (hnd : (ps.map (fun p => p.path)).Nodup) :
    (runNamespace s ps).2 =
      ps.map (fun p => p.compile.map (fun r => (r, true))) ∧
    ∀ p ∈ ps, alookup (runNamespace s ps).1.cache p.path =
      p.compile.map (fun r => (⟨p.files, r⟩ : CacheEntry)) := by
  induction ps generalizing s with
  | nil => exact ⟨rfl, fun p hp => absurd hp (List.not_mem_nil p)⟩
  | cons p ps ih =>
    have hmiss_p := hmiss p (List.mem_cons_self _ _)
    have hnd' := (List.nodup_cons.mp hnd).2
    have hp_notin := (List.nodup_cons.mp hnd).1
    have hne : ∀ q ∈ ps, q.path ≠ p.path := by
      intro q hq h
      apply hp_notin
      have hmem : q.path ∈ List.map (fun x => x.path) ps :=
        List.mem_map_of_mem (fun x => x.path) hq
      rw [h] at hmem
      exact hmem
    rcases hc : p.compile with _ | r
    · have hstep : stepProfile s p = (s, none) := by
        unfold stepProfile
        rw [hmiss_p, hc]
      obtain ⟨ih1, ih2⟩ := ih s (fun q hq => hmiss q (List.mem_cons_of_mem _ hq)) hnd'
      refine ⟨?_, ?_⟩
      · simp only [runNamespace, hstep, List.map_cons, hc, Option.map_none']
        rw [ih1]
      · intro q hq
        rcases List.mem_cons.mp hq with h | h
        · subst h
          simp only [runNamespace, hstep]
          rw [runNamespace_cache_other ps s q.path hne, hmiss_p, hc]
          rfl
        · simp only [runNamespace, hstep]
          exact ih2 q h
    · have hstep : stepProfile s p =
          ({ cache := aset s.cache p.path ⟨p.files, r⟩, dirty := true },
           some (r, true)) := by
        unfold stepProfile
        rw [hmiss_p, hc]
      have hmiss' : ∀ q ∈ ps,
          alookup (aset s.cache p.path ⟨p.files, r⟩) q.path = none := by
        intro q hq
        rw [alookup_aset, if_neg (fun h => hne q hq h.symm)]
        exact hmiss q (List.mem_cons_of_mem _ hq)
      obtain ⟨ih1, ih2⟩ :=
        ih { cache := aset s.cache p.path ⟨p.files, r⟩, dirty := true }
          hmiss' hnd'
      refine ⟨?_, ?_⟩
      · simp only [runNamespace, hstep, List.map_cons, hc, Option.map_some']
        rw [ih1]
      · intro q hq
        rcases List.mem_cons.mp hq with h | h
        · subst h
          simp only [runNamespace, hstep]
          rw [runNamespace_cache_other ps _ q.path hne]
          simp [alookup_aset, hc]
        · simp only [runNamespace, hstep]
          exact ih2 q h

theorem runNamespace_cached (ps : List ProfileState) (s : NsState)
    (hhit : ∀ p ∈ ps, alookup s.cache p.path =
      p.compile.map (fun r => (⟨p.files, r⟩ : CacheEntry))) :
    (runNamespace s ps).2 =
      ps.map (fun p => p.compile.map (fun r => (r, false))) ∧
    (runNamespace s ps).1 = s := by
  induction ps generalizing s with
  | nil => exact ⟨rfl, rfl⟩
  | cons p ps ih =>
    have hhit_p := hhit p (List.mem_cons_self _ _)
    rcases hc : p.compile with _ | r
    · rw [hc] at hhit_p
      simp only [Option.map_none'] at hhit_p
      have hstep : stepProfile s p = (s, none) := by
        unfold stepProfile
        rw [hhit_p, hc]
      obtain ⟨ih1, ih2⟩ := ih s (fun q hq => hhit q (List.mem_cons_of_mem _ hq))
      refine ⟨?_, ?_⟩
      · simp only [runNamespace, hstep, List.map_cons, hc, Option.map_none']
        rw [ih1]
      · simp only [runNamespace, hstep]
        exact ih2
    · rw [hc] at hhit_p
      simp only [Option.map_some'] at hhit_p
      have hstep : stepProfile s p = (s, some (r, false)) := by
        unfold stepProfile
        rw [hhit_p]
        simp
      obtain ⟨ih1, ih2⟩ := ih s (fun q hq => hhit q (List.mem_cons_of_mem _ hq))
      refine ⟨?_, ?_⟩
      · simp only [runNamespace, hstep, List.map_cons, hc, Option.map_some']
        rw [ih1]
      · simp only [runNamespace, hstep]
        exact ih2

/-- C3: cache round-trip.  A first run from an empty namespace recompiles
every compilable profile; a second run on the unchanged inputs serves
every profile from the cache, with no recompilation, and the reused fields
are exactly what fresh compilation produces; and in general a cached entry
whose stored fingerprint equals the live one is reused as-is with the
state untouched, while a cached entry with a differing fingerprint — or no
cached entry at all — forces the compilable profile to be recompiled and
its fresh record stored with the namespace marked dirty. -/
theorem update_cache_roundtrip (ps : List ProfileState)
    (hnd : (ps.map (fun p => p.path)).Nodup) :
    ((runNamespace ⟨[], false⟩ ps).2 =
      ps.map (fun p => p.compile.map (fun r => (r, true)))) ∧
    ((runNamespace ⟨(runNamespace ⟨[], false⟩ ps).1.cache, false⟩ ps).2 =
      ps.map (fun p => p.compile.map (fun r => (r, false)))) ∧
    (∀ (s : NsState) (p : ProfileState) (entry : CacheEntry),
      alookup s.cache p.path = some entry → entry.files = p.files →
      stepProfile s p = (s, some (entry.record, false))) ∧
    (∀ (s : NsState) (p : ProfileState) (entry : CacheEntry)
        (r : CompiledProfileRecord),
      alookup s.cache p.path = some entry → entry.files ≠ p.files →
      p.compile = some r →
      stepProfile s p =
        ({ cache := aset s.cache p.path ⟨p.files, r⟩, dirty := true },
         some (r, true))) ∧
    (∀ (s : NsState) (p : ProfileState) (r : CompiledProfileRecord),
      alookup s.cache p.path = none → p.compile = some r →
      stepProfile s p =
        ({ cache := aset s.cache p.path ⟨p.files, r⟩, dirty := true },
         some (r, true))) := by
  obtain ⟨h1, h2⟩ :=
    runNamespace_fresh ps ⟨[], false⟩ (fun p _ => rfl) hnd
  refine ⟨h1, ?_, ?_, ?_, ?_⟩
  · exact (runNamespace_cached ps
      ⟨(runNamespace ⟨[], false⟩ ps).1.cache, false⟩ h2).1
  · intro s p entry hlook hfiles
    unfold stepProfile
    rw [hlook]
    dsimp only
    rw [if_pos hfiles]
  · intro s p entry r hlook hfiles hcomp
    unfold stepProfile
    rw [hlook]
    dsimp only
    rw [if_neg hfiles, hcomp]
  · intro s p r hlook hcomp
    unfold stepProfile
    rw [hlook]
    dsimp only
    rw [hcomp]

/-- A concrete compiled record for the C3 witness. -/
def sampleRecord : CompiledProfileRecord :=
  { masks := [], unmasks := [],
    immutable_flags := sampleRules, stable_immutable_flags := sampleRules,
    enabled_flags := sampleRules, stable_enabled_flags := sampleRules,
    pkg_use := [], iuse_effective := ["foo"], use := ["foo"],
    provides_repo := "repo" }

/-- A concrete one-profile namespace input for the C3 witness. -/
def sampleStates : List ProfileState :=
  [⟨"default/linux/amd64", (5, {"profiles/default/linux/amd64/make.defaults"}),
    some sampleRecord⟩]

/-- Witness for C3 at the concrete one-profile namespace. -/
theorem update_cache_roundtrip_wit :
    (sampleStates.map (fun p => p.path)).Nodup ∧
    (((runNamespace ⟨[], false⟩ sampleStates).2 =
      sampleStates.map (fun p => p.compile.map (fun r => (r, true)))) ∧
    ((runNamespace
        ⟨(runNamespace ⟨[], false⟩ sampleStates).1.cache, false⟩
        sampleStates).2 =
      sampleStates.map (fun p => p.compile.map (fun r => (r, false)))) ∧
    (∀ (s : NsState) (p : ProfileState) (entry : CacheEntry),
      alookup s.cache p.path = some entry → entry.files = p.files →
      stepProfile s p = (s, some (entry.record, false))) ∧
    (∀ (s : NsState) (p : ProfileState) (entry : CacheEntry)
        (r : CompiledProfileRecord),
      alookup s.cache p.path = some entry → entry.files ≠ p.files →
      p.compile = some r →
      stepProfile s p =
        ({ cache := aset s.cache p.path ⟨p.files, r⟩, dirty := true },
         some (r, true))) ∧
    (∀ (s : NsState) (p : ProfileState) (r : CompiledProfileRecord),
      alookup s.cache p.path = none → p.compile = some r →
      stepProfile s p =
        ({ cache := aset s.cache p.path ⟨p.files, r⟩, dirty := true },
         some (r, true)))) :=
  ⟨List.nodup_singleton _,
   update_cache_roundtrip sampleStates (List.nodup_singleton _)⟩

/-- One directory entry as seen by os.listdir plus os.lstat: its name,
whether it is a regular file, and its mtime. -/
structure DirEnt where
  name : String
  isReg : Bool
  mtime : Nat

/-- The filesystem at the granularity _profile_files reads it: a listing
for every directory path. -/
abbrev FS := String → List DirEnt

/-- snakeoil pjoin, at the arity used here. -/
def pjoin (a b : String) : String := a ++ "/" ++ b

/-- Per-run cache of _profile_files: directory path -> (mtime, files). -/
abbrev DirCache := List (String × (Nat × List String))

/-- The inner listdir loop of _profile_files (addons.py:262-268): regular
files are appended to the running list, and their mtimes folded into the
running maximum. -/
def dirLoop (path : String) (entries : List DirEnt)
    (acc : Nat × List String) : Nat × List String :=
  entries.foldl
    (fun acc e =>
      if e.isReg then
        (if e.mtime > acc.1 then e.mtime else acc.1,
         acc.2 ++ [pjoin path e.name])
      else acc) acc

/-- A directory's listing computed from scratch. -/
def freshDir (fs : FS) (path : String) : Nat × List String :=
  dirLoop path (fs path) (0, [])

/-- The per-node body of _profile_files (addons.py:259-272): consult the
cache with default (0, []); when the cached mtime is falsy, rescan the
node starting from the cached pair (the Python loop appends into the
cached list object) and store the result; fold the node mtime into the
profile mtime and extend the profile file list. -/
def fsStep (fs : FS) (st : Nat × List String × DirCache) (node : String) :
    Nat × List String × DirCache :=
  match alookup st.2.2 node with
  | none =>
    let d := dirLoop node (fs node) (0, [])
    (if d.1 > st.1 then d.1 else st.1, st.2.1 ++ d.2, aset st.2.2 node d)
  | some c =>
    if c.1 = 0 then
      let d := dirLoop node (fs node) c
      (if d.1 > st.1 then d.1 else st.1, st.2.1 ++ d.2, aset st.2.2 node d)
    else
      (if c.1 > st.1 then c.1 else st.1, st.2.1 ++ c.2, st.2.2)

/-- One send to the _profile_files coroutine: fold over the profile's
directory stack and yield (profile_mtime, frozenset(profile_files))
together with the updated per-run cache. -/
def profileFilesRun (fs : FS) (cache : DirCache) (stack : List String) :
    (Nat × Finset String) × DirCache :=
  let r := stack.foldl (fsStep fs) (0, [], cache)
  ((r.1, r.2.1.toFinset), r.2.2)

/-- Cache invariant: every entry stores the node's fresh maximal mtime
and a list whose underlying set is the node's fresh file set. -/
def dirCacheOK (fs : FS) (c : DirCache) : Prop :=
  ∀ e ∈ c, e.2.1 = (freshDir fs e.1).1 ∧
    e.2.2.toFinset = (freshDir fs e.1).2.toFinset

/-- The canonical profile mtime of a stack. -/
def canonM (fs : FS) (stack : List String) (pm : Nat) : Nat :=
  stack.foldl
    (fun m node => if (freshDir fs node).1 > m then (freshDir fs node).1 else m)
    pm

/-- The canonical profile file set of a stack. -/
def canonSet (fs : FS) : List String → Finset String
  | [] => ∅
  | node :: stack => (freshDir fs node).2.toFinset ∪ canonSet fs stack

theorem dirLoop_cons (path : String) (e : DirEnt) (es : List DirEnt)
    (acc : Nat × List String) :
    dirLoop path (e :: es) acc =
      dirLoop path es
        (if e.isReg then
          (if e.mtime > acc.1 then e.mtime else acc.1,
           acc.2 ++ [pjoin path e.name])
         else acc) := rfl

theorem dirLoop_fst_files_irrel (path : String) (entries : List DirEnt) :
    ∀ (m : Nat) (fl fl' : List String),
    (dirLoop path entries (m, fl)).1 = (dirLoop path entries (m, fl')).1 := by
  induction entries with
  | nil => intro m fl fl'; rfl
  | cons e es ih =>
    intro m fl fl'
    rw [dirLoop_cons, dirLoop_cons]
    by_cases hr : e.isReg = true
    · rw [if_pos hr, if_pos hr]
      exact ih _ _ _
    · rw [if_neg hr, if_neg hr]
      exact ih _ _ _

theorem dirLoop_snd_append (path : String) (entries : List DirEnt) :
    ∀ (m : Nat) (fl : List String),
    (dirLoop path entries (m, fl)).2 = fl ++ (dirLoop path entries (m, [])).2 := by
  induction entries with
  | nil => intro m fl; simp [dirLoop]
  | cons e es ih =>
    intro m fl
    rw [dirLoop_cons, dirLoop_cons]
    by_cases hr : e.isReg = true
    · rw [if_pos hr, if_pos hr]
      dsimp only
      rw [ih _ (fl ++ [pjoin path e.name]), ih _ ([] ++ [pjoin path e.name])]
      simp
    · rw [if_neg hr, if_neg hr]
      exact ih _ fl

theorem mem_aset {β : Type} {c : List (String × β)} {k : String} {v : β}
    {x : String × β} (hx : x ∈ aset c k v) : x = (k, v) ∨ x ∈ c := by
  induction c with
  | nil =>
    simp only [aset, List.mem_singleton] at hx
    exact Or.inl hx
  | cons hd rest ih =>
    obtain ⟨k0, w⟩ := hd
    simp only [aset] at hx
    by_cases h0 : k0 = k
    · rw [if_pos h0] at hx
      rcases List.mem_cons.mp hx with h | h
      · subst h0
        exact Or.inl h
      · exact Or.inr (List.mem_cons_of_mem _ h)
    · rw [if_neg h0] at hx
      rcases List.mem_cons.mp hx with h | h
      · exact Or.inr (h ▸ List.mem_cons_self _ _)
      · rcases ih h with h1 | h1
        · exact Or.inl h1
        · exact Or.inr (List.mem_cons_of_mem _ h1)

theorem dirCacheOK_aset {fs : FS} {c : DirCache} {node : String}
    {d : Nat × List String} (hc : dirCacheOK fs c)
    (hd1 : d.1 = (freshDir fs node).1)
    (hd2 : d.2.toFinset = (freshDir fs node).2.toFinset) :
    dirCacheOK fs (aset c node d) := by
  intro e he
  rcases mem_aset he with h | h
  · subst h
    exact ⟨hd1, hd2⟩
  · exact hc e h

theorem alookup_mem {β : Type} {c : List (String × β)} {k : String} {v : β}
    (h : alookup c k = some v) : (k, v) ∈ c := by
  induction c with
  | nil => cases h
  | cons hd rest ih =>
    obtain ⟨k0, w⟩ := hd
    simp only [alookup] at h
    by_cases h0 : k0 = k
    · rw [if_pos h0] at h
      cases h
      subst h0
      exact List.mem_cons_self _ _
    · rw [if_neg h0] at h
      exact List.mem_cons_of_mem _ (ih h)

theorem fsStep_spec (fs : FS) (pm : Nat) (pf : List String) (c : DirCache)
    (node : String) (hc : dirCacheOK fs c) :
    (fsStep fs (pm, pf, c) node).1 =
      (if (freshDir fs node).1 > pm then (freshDir fs node).1 else pm) ∧
    (fsStep fs (pm, pf, c) node).2.1.toFinset =
      pf.toFinset ∪ (freshDir fs node).2.toFinset ∧
    dirCacheOK fs (fsStep fs (pm, pf, c) node).2.2 := by
  unfold fsStep
  rcases hl : alookup c node with _ | ⟨m0, fl0⟩
  · dsimp only
    refine ⟨rfl, ?_, ?_⟩
    · simp [freshDir]
    · exact dirCacheOK_aset hc rfl rfl
  · obtain ⟨hm0, hfl0⟩ := hc (node, (m0, fl0)) (alookup_mem hl)
    dsimp only at hm0 hfl0 ⊢
    by_cases h0 : m0 = 0
    · subst h0
      rw [if_pos rfl]
      dsimp only
      have hfd : dirLoop node (fs node) (0, []) = freshDir fs node := rfl
      have hfst : (dirLoop node (fs node) (0, fl0)).1 = (freshDir fs node).1 := by
        rw [← hfd]
        exact dirLoop_fst_files_irrel node (fs node) 0 fl0 []
      have hsnd : (dirLoop node (fs node) (0, fl0)).2.toFinset =
          (freshDir fs node).2.toFinset := by
        rw [dirLoop_snd_append, List.toFinset_append, hfl0, hfd,
          Finset.union_self]
      refine ⟨by rw [hfst], ?_, ?_⟩
      · rw [List.toFinset_append, hsnd]
      · exact dirCacheOK_aset hc hfst hsnd
    · rw [if_neg h0]
      dsimp only
      refine ⟨by rw [hm0], ?_, hc⟩
      rw [List.toFinset_append, hfl0]

theorem foldl_fsStep_canonical (fs : FS) (stack : List String) :
    ∀ (pm : Nat) (pf : List String) (c : DirCache), dirCacheOK fs c →
    (stack.foldl (fsStep fs) (pm, pf, c)).1 = canonM fs stack pm ∧
    (stack.foldl (fsStep fs) (pm, pf, c)).2.1.toFinset =
      pf.toFinset ∪ canonSet fs stack ∧
    dirCacheOK fs (stack.foldl (fsStep fs) (pm, pf, c)).2.2 := by
  induction stack with
  | nil =>
    intro pm pf c hc
    exact ⟨rfl, by simp [canonSet], hc⟩
  | cons node stack ih =>
    intro pm pf c hc
    obtain ⟨h1, h2, h3⟩ := fsStep_spec fs pm pf c node hc
    have hstep : fsStep fs (pm, pf, c) node =
        ((fsStep fs (pm, pf, c) node).1,
         (fsStep fs (pm, pf, c) node).2.1,
         (fsStep fs (pm, pf, c) node).2.2) := rfl
    simp only [List.foldl_cons]
    rw [hstep]
    obtain ⟨ihm, ihs, ihc⟩ := ih (fsStep fs (pm, pf, c) node).1
      (fsStep fs (pm, pf, c) node).2.1 (fsStep fs (pm, pf, c) node).2.2 h3
    refine ⟨?_, ?_, ihc⟩
    · rw [ihm, h1]
      rfl
    · rw [ihs, h2, canonSet]
      rw [Finset.union_assoc]

theorem profileFilesRun_canonical (fs : FS) (cache : DirCache)
    (stack : List String) (hc : dirCacheOK fs cache) :
    (profileFilesRun fs cache stack).1 = (canonM fs stack 0, canonSet fs stack) ∧
    dirCacheOK fs (profileFilesRun fs cache stack).2 := by
  obtain ⟨h1, h2, h3⟩ := foldl_fsStep_canonical fs stack 0 [] cache hc
  refine ⟨?_, h3⟩
  unfold profileFilesRun
  rw [Prod.mk.injEq]
  refine ⟨h1, ?_⟩
  rw [h2]
  simp

/-- C7: fingerprint stability.  With an unchanged filesystem, computing a
profile fingerprint through the per-run directory cache produced by an
earlier computation yields exactly the fingerprint a fresh computation
produces: the same maximal mtime and the same frozenset of regular-file
paths. -/
theorem profile_files_fingerprint_stable (fs : FS)
    (stack1 stack2 : List String) :
    (profileFilesRun fs (profileFilesRun fs [] stack1).2 stack2).1 =
    (profileFilesRun fs [] stack2).1 := by
  have hnil : dirCacheOK fs [] := fun e he => absurd he (List.not_mem_nil e)
  have h1 := profileFilesRun_canonical fs [] stack1 hnil
  have h2 := profileFilesRun_canonical fs (profileFilesRun fs [] stack1).2
    stack2 h1.2
  have h3 := profileFilesRun_canonical fs [] stack2 hnil
  rw [h2.1, h3.1]

/-- C8: both components returned by identify_use are subsets of
known_flags. -/
theorem identify_use_subsets_known (pd : ProfileData) (pkg : Pkg)
    (known_flags : Finset String) :
    (pd.identify_use pkg known_flags).1 ⊆ known_flags ∧
    (pd.identify_use pkg known_flags).2 ⊆ known_flags := by
  constructor
  · intro f hf
    simp only [ProfileData.identify_use, Finset.mem_union, Finset.mem_inter,
      Finset.mem_filter] at hf
    rcases hf with ⟨h, _⟩ | ⟨_, h⟩ <;> exact h
  · intro f hf
    simp only [ProfileData.identify_use] at hf
    split at hf
    · exact (Finset.mem_inter.mp hf).1
    · exact (Finset.mem_inter.mp (Finset.mem_sdiff.mp hf).1).1

/-- C10: the enabled set returned by identify_use is a subset of the
immutable set it returns. -/
theorem identify_use_enabled_subset_immutable (pd : ProfileData) (pkg : Pkg)
    (known_flags : Finset String) :
    (pd.identify_use pkg known_flags).2 ⊆ (pd.identify_use pkg known_flags).1 := by
  intro f hf
  simp only [ProfileData.identify_use] at hf ⊢
  refine Finset.mem_union_left _ ?_
  split at hf
  · exact hf
  · exact (Finset.mem_sdiff.mp hf).1

end Pkgcheck
